import Mathlib

/-!
# Verification of the rustygrad scalar autodiff engine

Shallow embedding of `src/engine.rs` (the `Value` graph, its operators and
the backward pass).  The `Rc<RefCell<ValueData>>` heap is modelled as an
arena: a `Graph` is the list of all allocated nodes in allocation order, a
node's `uuid` identity is its index, and the `_prev` operand references are
indices into the arena.  Every constructor appends to the arena, which makes
the source's construction invariant explicit (`WF`): each operand of a node
was allocated before the node — a strictly smaller index — with the single
exception of `pow`, whose exponent literal (`Value::from(power)`) is
allocated immediately after the output that consumes it, at index `i + 1`,
and is a tagless leaf.

`f64` arithmetic is modelled by exact rational arithmetic `ℚ`; the numeric
claims below carry tolerances (1e-3) that dwarf double-precision rounding,
and no claim exercises rounding-sensitive behaviour.
-/

namespace Rustygrad

/-- Arena index of a node; plays the role of the `uuid` identity token. -/
abbrev NodeId := Nat

/-- Operator tag (the `_op` field of `ValueData`).  The `_backward` function
pointer of the source is determined by this tag: every constructor in
`engine.rs` sets `_op` and `_backward` together, so the backward executor
dispatches on the tag (spec §9 notes this equivalence explicitly). -/
inductive Op where
  | add
  | mul
  | pow
  | relu
deriving DecidableEq, Repr

/-- `ValueData`: scalar value, gradient accumulator, operator tag and ordered
operand list.  The `uuid` field is replaced by the arena index. -/
structure Node where
  data : ℚ
  grad : ℚ
  op : Option Op
  prev : List NodeId
deriving DecidableEq, Repr

/-- The arena of all allocated nodes, in allocation order. -/
abbrev Graph := List Node

/-- Out-of-range reads (never reached through the API) yield this node. -/
def defaultNode : Node := ⟨0, 0, none, []⟩

def nthNode (g : Graph) (i : NodeId) : Node := g.getD i defaultNode

def dataOf (g : Graph) (i : NodeId) : ℚ := (nthNode g i).data

def gradOf (g : Graph) (i : NodeId) : ℚ := (nthNode g i).grad

def prevOf (g : Graph) (i : NodeId) : List NodeId := (nthNode g i).prev

/-- `node.borrow_mut().grad = q` (an overwrite). -/
def setGrad (g : Graph) (i : NodeId) (q : ℚ) : Graph :=
  g.set i { nthNode g i with grad := q }

/-- `node.borrow_mut().grad += q`. -/
def addGrad (g : Graph) (i : NodeId) (q : ℚ) : Graph :=
  setGrad g i (gradOf g i + q)

/-- `Value::from(x)` / `ValueData::new`: fresh leaf node with zero gradient,
no operator tag and no operands. -/
def mkLit (g : Graph) (x : ℚ) : Graph × NodeId :=
  (g ++ [⟨x, 0, none, []⟩], g.length)

/-- `impl_op_ex!(+ ...)`: output value `a.data + b.data`, operands `[a, b]`,
tag `+`. -/
def vadd (g : Graph) (a b : NodeId) : Graph × NodeId :=
  (g ++ [⟨dataOf g a + dataOf g b, 0, some Op.add, [a, b]⟩], g.length)

/-- `impl_op_ex!(* ...)`: output value `a.data * b.data`, operands `[a, b]`,
tag `×`. -/
def vmul (g : Graph) (a b : NodeId) : Graph × NodeId :=
  (g ++ [⟨dataOf g a * dataOf g b, 0, some Op.mul, [a, b]⟩], g.length)

/-- `f64::powf` on the rational embedding: exact for integer exponents (the
only exponents the engine's callers and the claims exercise: 3, 2, -1 and the
`p - 1` values they induce).  A non-integer exponent falls outside the
rational model and is mapped to 0. -/
def powf (a p : ℚ) : ℚ := if p.den = 1 then a ^ p.num else 0

/-- `Value::pow(&self, power: f64)`: allocates the output node first and then
a fresh literal node holding the exponent (`Value::from(power)`), exactly as
the source's `vec![self.clone(), Value::from(power)]` does; the output's
operands are `[a, exponent-node]`. -/
def vpow (g : Graph) (a : NodeId) (p : ℚ) : Graph × NodeId :=
  (g ++ [⟨powf (dataOf g a) p, 0, some Op.pow, [a, g.length + 1]⟩,
         ⟨p, 0, none, []⟩], g.length)

/-- `Value::relu`: output value `self.data.max(0.0)`, single operand. -/
def vrelu (g : Graph) (a : NodeId) : Graph × NodeId :=
  (g ++ [⟨max (dataOf g a) 0, 0, some Op.relu, [a]⟩], g.length)

/-- `impl_op!(- |a: &Value| ...)`: `a * Value::from(-1.0)` — the literal is
allocated first (argument evaluation), then the product node. -/
def vneg (g : Graph) (a : NodeId) : Graph × NodeId :=
  let m := mkLit g (-1)
  vmul m.1 a m.2

/-- `impl_op_ex!(- ...)`: `a + (-b)`. -/
def vsub (g : Graph) (a b : NodeId) : Graph × NodeId :=
  let n := vneg g b
  vadd n.1 a n.2

/-- `impl_op_ex!(/ ...)`: `a * b.pow(-1.0)`. -/
def vdiv (g : Graph) (a b : NodeId) : Graph × NodeId :=
  let p := vpow g b (-1)
  vmul p.1 a p.2

/-- One step of the backward pass: run node `i`'s `_backward` rule.  The rule
reads the node's own `grad` (and for `×`/`^` the operands' `data`) before any
`+=`, exactly as the closures in `engine.rs` do, and then accumulates into the
operands' gradients left to right.  A node without a tag (a leaf) has
`_backward == None` and the step is a no-op. -/
def applyRule (g : Graph) (i : NodeId) : Graph :=
  let n := nthNode g i
  match n.op with
  | none => g
  | some Op.add =>
      addGrad (addGrad g (n.prev.getD 0 0) n.grad) (n.prev.getD 1 0) n.grad
  | some Op.mul =>
      let ad := dataOf g (n.prev.getD 0 0)
      let bd := dataOf g (n.prev.getD 1 0)
      addGrad (addGrad g (n.prev.getD 0 0) (bd * n.grad)) (n.prev.getD 1 0)
        (ad * n.grad)
  | some Op.pow =>
      let base := dataOf g (n.prev.getD 0 0)
      let p := dataOf g (n.prev.getD 1 0)
      addGrad g (n.prev.getD 0 0) (p * powf base (p - 1) * n.grad)
  | some Op.relu =>
      addGrad g (n.prev.getD 0 0) (if 0 < n.data then n.grad else 0)

/-- `Value::_build_topo`: depth-first traversal recording a post-order `topo`
and a `visited` set (modelled as a list of ids).  The source recurses on heap
references; here recursion is paid for by a `fuel` argument.  On every graph
built through the operator API every descent step strictly decreases the
index, except a final step from a `pow` output to its exponent literal — a
leaf, which consumes one last unit of fuel and stops; since a `pow` output
always has its base operand below it, its index is at least 1, so starting
`backward(root)` with `fuel = root + 1` reproduces the source's traversal
exactly (proved in `buildTopoF_call_spec`).  The fuel can only run out on
malformed graphs, on which the source would not terminate. -/
def buildTopoF (g : Graph) :
    Nat → NodeId → List NodeId × List NodeId → List NodeId × List NodeId
  | 0, _, tv => tv
  | fuel + 1, i, tv =>
    if i ∈ tv.2 then tv
    else
      let r := (prevOf g i).foldl (fun tv2 c => buildTopoF g fuel c tv2)
        (tv.1, i :: tv.2)
      (r.1 ++ [i], r.2)

/-- The post-order visitation list computed by `_build_topo(root)` starting
from empty `topo`/`visited`. -/
def topoOf (g : Graph) (root : NodeId) : List NodeId :=
  (buildTopoF g (root + 1) root ([], [])).1

/-- `Value::backward`: build the post-order, reverse it, seed the root's
gradient with `1.0` (an overwrite), then run every node's rule in the
reversed order. -/
def backward (g : Graph) (root : NodeId) : Graph :=
  (topoOf g root).reverse.foldl applyRule (setGrad g root 1)

/-- `impl Sum for Value`: `iter.nth(0).expect(...)` followed by a left fold
of `+`.  The `expect` panic on an empty iterator is modelled by `none`. -/
def sumValues (g : Graph) (l : List NodeId) : Option (Graph × NodeId) :=
  match l with
  | [] => none
  | first :: rest =>
      some (rest.foldl (fun acc v => vadd acc.1 acc.2 v) (g, first))

/-- Operand-list arity fixed by each constructor of `engine.rs`: leaves carry
no operands, `relu` one, the binary operators and `pow` two. -/
def arity (n : Node) : Prop :=
  match n.op with
  | none => n.prev = []
  | some Op.relu => n.prev.length = 1
  | some _ => n.prev.length = 2

instance (n : Node) : Decidable (arity n) := by
  unfold arity; cases n.op with
  | none => infer_instance
  | some o => cases o <;> infer_instance

/-- Well-formedness invariant of every graph built through the operator API:
each node carries the arity its constructor fixes; its first operand (the
`self`/left argument of every operator) was allocated strictly before it; and
every operand either was allocated strictly before it or is the exponent
literal of a `pow` call — the node allocated immediately after the output, at
index `i + 1`, inside the arena, a leaf with no operator tag.  That this is
an invariant of the API is proved below: the empty arena satisfies it
(`WF_nil`) and every constructor preserves it (`WF_mkLit`, `WF_vadd`,
`WF_vmul`, `WF_vrelu`, `WF_vpow`, `WF_vneg`, `WF_vsub`, `WF_vdiv`). -/
def WF (g : Graph) : Prop :=
  ∀ i, i < g.length → arity (nthNode g i) ∧
    (prevOf g i ≠ [] → (prevOf g i).getD 0 0 < i) ∧
    ∀ c ∈ prevOf g i, c < i ∨
      (c = i + 1 ∧ c < g.length ∧ prevOf g c = [] ∧ (nthNode g c).op = none)

instance (g : Graph) : Decidable (WF g) := by
  unfold WF; infer_instance

/-- Reachability along operand edges: the nodes `backward(root)` must visit. -/
inductive Reaches (g : Graph) : NodeId → NodeId → Prop
  | refl (i : NodeId) : Reaches g i i
  | step {i c j : NodeId} : c ∈ prevOf g i → Reaches g c j → Reaches g i j

/-- A list of node ids is topologically ordered for `g` when every element is
preceded by all of its operands. -/
def ordOK (g : Graph) (topo : List NodeId) : Prop :=
  ∀ t1 v t2, topo = t1 ++ v :: t2 → ∀ c ∈ prevOf g v, c ∈ t1

/-- Invariant carried through `_build_topo` from state `(topo, visited)` to
state `(topo2, visited2)`; `P` constrains the freshly recorded nodes. -/
def TopoPost (g : Graph) (topo visited topo2 visited2 : List NodeId)
    (P : NodeId → Prop) : Prop :=
  (∃ d, topo2 = topo ++ d) ∧
  (∀ x ∈ visited, x ∈ visited2) ∧
  (∀ x ∈ visited2, x ∉ topo2 → x ∈ visited ∧ x ∉ topo) ∧
  ordOK g topo2 ∧ topo2.Nodup ∧ (∀ x ∈ topo2, x ∈ visited2) ∧
  (∀ x ∈ topo2, x ∉ topo → P x ∧ x ∉ visited)

/-- The total gradient the rule of node `i` adds into node `c` when it fires
(the sum over the occurrences of `c` among the operands of `i`). -/
def contribOf (g : Graph) (i c : NodeId) : ℚ :=
  let n := nthNode g i
  match n.op with
  | none => 0
  | some Op.add =>
      (if n.prev.getD 0 0 = c then n.grad else 0) +
        (if n.prev.getD 1 0 = c then n.grad else 0)
  | some Op.mul =>
      (if n.prev.getD 0 0 = c then dataOf g (n.prev.getD 1 0) * n.grad else 0) +
        (if n.prev.getD 1 0 = c then dataOf g (n.prev.getD 0 0) * n.grad else 0)
  | some Op.pow =>
      if n.prev.getD 0 0 = c then
        dataOf g (n.prev.getD 1 0) *
          powf (dataOf g (n.prev.getD 0 0)) (dataOf g (n.prev.getD 1 0) - 1) *
          n.grad
      else 0
  | some Op.relu =>
      if n.prev.getD 0 0 = c then (if 0 < n.data then n.grad else 0) else 0

/-- Two graphs with the same nodes up to the `grad` fields: the backward pass
only ever mutates gradients, never `data`, `_op` or `_prev`. -/
def SameShape (g g2 : Graph) : Prop :=
  g2.length = g.length ∧ ∀ c : NodeId,
    (nthNode g2 c).data = (nthNode g c).data ∧
    (nthNode g2 c).op = (nthNode g c).op ∧
    (nthNode g2 c).prev = (nthNode g c).prev

/-- The spec sentence `negate(x) = multiply(x, literal(-1))`, written from the
words of the spec for comparison with the embedded `vneg`. -/
def specNegate (g : Graph) (x : NodeId) : Graph × NodeId :=
  let l := mkLit g (-1)
  vmul l.1 x l.2

/-- The spec sentence `subtract(a,b) = add(a, negate(b))`. -/
def specSubtract (g : Graph) (a b : NodeId) : Graph × NodeId :=
  let n := specNegate g b
  vadd n.1 a n.2

/-- The spec sentence `divide(a,b) = multiply(a, power(b, -1))`. -/
def specDivide (g : Graph) (a b : NodeId) : Graph × NodeId :=
  let p := vpow g b (-1)
  vmul p.1 a p.2

/-! Concrete graphs used by the claims and the witnesses. -/

/-- Leaf `a = 2.0` of the diamond example (id 0). -/
def diamondA : Graph × NodeId := mkLit [] 2

/-- Leaf `b = -3.0` of the diamond example (id 1). -/
def diamondB : Graph × NodeId := mkLit diamondA.1 (-3)

/-- `c = add(a, b)` of the diamond example (id 2). -/
def diamondC : Graph × NodeId := vadd diamondB.1 diamondA.2 diamondB.2

/-- `d = multiply(a, c)` of the diamond example (id 3): `a` feeds `d` both
directly and through `c`. -/
def diamondD : Graph × NodeId := vmul diamondC.1 diamondA.2 diamondC.2

/-- `x = 3.0; y = power(x, 2.0)`: node 0 is `x`, node 1 the output, node 2
the exponent literal. -/
def powEx : Graph × NodeId := vpow (mkLit [] 3).1 0 2

/-- `relu` applied to a leaf `-2.0`. -/
def reluNegEx : Graph × NodeId := vrelu (mkLit [] (-2)).1 0

/-- `relu` applied to a leaf `2.0`. -/
def reluPosEx : Graph × NodeId := vrelu (mkLit [] 2).1 0

/-- A two-step chain `w = relu(relu(u))`, `u = 2.0` (ids 0, 1, 2). -/
def chainTwoRelu : Graph × NodeId :=
  let u := mkLit [] 2
  let v := vrelu u.1 u.2
  vrelu v.1 v.2

/-- The canonical worked example of `src/main.rs` (micrograd sanity check),
transcribed operator call by operator call with the engine API: `a = -4`,
`b = 2`, then the composite chain ending in `g = f/2 + 10/f`.  The second
component is the id of the final output `g`. -/
def golden : Graph × NodeId :=
  let A := mkLit [] (-4)
  let B := mkLit A.1 2
  let a := A.2
  let b := B.2
  let c1 := vadd B.1 a b
  let t1 := vmul c1.1 a b
  let t2 := vpow t1.1 b 3
  let d1 := vadd t2.1 t1.2 t2.2
  let t3 := vadd d1.1 c1.2 c1.2
  let l1 := mkLit t3.1 1
  let c2 := vadd l1.1 t3.2 l1.2
  let l2 := mkLit c2.1 1
  let t4 := vadd l2.1 c2.2 l2.2
  let t5 := vadd t4.1 t4.2 c2.2
  let n1 := vneg t5.1 a
  let c3 := vadd n1.1 t5.2 n1.2
  let l3 := mkLit c3.1 2
  let t6 := vmul l3.1 d1.2 l3.2
  let t7 := vadd t6.1 d1.2 t6.2
  let t8 := vadd t7.1 b a
  let r1 := vrelu t8.1 t8.2
  let d2 := vadd r1.1 t7.2 r1.2
  let l4 := mkLit d2.1 3
  let t9 := vmul l4.1 d2.2 l4.2
  let t10 := vadd t9.1 d2.2 t9.2
  let s1 := vsub t10.1 b a
  let r2 := vrelu s1.1 s1.2
  let d3 := vadd r2.1 t10.2 r2.2
  let e := vsub d3.1 c3.2 d3.2
  let f := vpow e.1 e.2 2
  let l5 := mkLit f.1 2
  let g1 := vdiv l5.1 f.2 l5.2
  let l6 := mkLit g1.1 10
  let t11 := vdiv l6.1 l6.2 f.2
  vadd t11.1 g1.2 t11.2

/-! ## Basic arena lemmas -/

theorem nthNode_append_lt (g t : Graph) (i : NodeId) (h : i < g.length) :
    nthNode (g ++ t) i = nthNode g i := by
  simp [nthNode, List.getD, List.getElem?_append_left h]

theorem nthNode_append_ge (g t : Graph) (i : NodeId) (h : g.length ≤ i) :
    nthNode (g ++ t) i = nthNode t (i - g.length) := by
  simp [nthNode, List.getD, List.getElem?_append_right h]

theorem nthNode_big (g : Graph) (i : NodeId) (h : g.length ≤ i) :
    nthNode g i = defaultNode := by
  simp [nthNode, List.getD, List.getElem?_eq_none h]

theorem prevOf_big (g : Graph) (i : NodeId) (h : g.length ≤ i) :
    prevOf g i = [] := by
  simp [prevOf, nthNode_big g i h, defaultNode]

theorem length_setGrad (g : Graph) (i : NodeId) (q : ℚ) :
    (setGrad g i q).length = g.length := by
  simp [setGrad]

theorem length_addGrad (g : Graph) (i : NodeId) (q : ℚ) :
    (addGrad g i q).length = g.length := by
  simp [addGrad, length_setGrad]

theorem nthNode_setGrad_self (g : Graph) (i : NodeId) (q : ℚ)
    (h : i < g.length) :
    nthNode (setGrad g i q) i = { nthNode g i with grad := q } := by
  simp [setGrad, nthNode, List.getD, List.getElem?_set_self h]

theorem nthNode_setGrad_ne (g : Graph) (i j : NodeId) (q : ℚ) (h : j ≠ i) :
    nthNode (setGrad g i q) j = nthNode g j := by
  simp [setGrad, nthNode, List.getD, List.getElem?_set_ne (Ne.symm h)]

theorem nthNode_setGrad_big (g : Graph) (i j : NodeId) (q : ℚ)
    (h : g.length ≤ i) :
    nthNode (setGrad g i q) j = nthNode g j := by
  rcases eq_or_ne j i with rfl | hne
  · rw [nthNode_big _ _ (by simpa [length_setGrad] using h), nthNode_big g j h]
  · exact nthNode_setGrad_ne g i j q hne

theorem gradOf_setGrad_self (g : Graph) (i : NodeId) (q : ℚ)
    (h : i < g.length) : gradOf (setGrad g i q) i = q := by
  simp [gradOf, nthNode_setGrad_self g i q h]

theorem gradOf_setGrad_ne (g : Graph) (i j : NodeId) (q : ℚ) (h : j ≠ i) :
    gradOf (setGrad g i q) j = gradOf g j := by
  simp [gradOf, nthNode_setGrad_ne g i j q h]

theorem gradOf_addGrad (g : Graph) (i j : NodeId) (q : ℚ) (hi : i < g.length) :
    gradOf (addGrad g i q) j = gradOf g j + if i = j then q else 0 := by
  rcases eq_or_ne j i with rfl | hne
  · rw [addGrad, gradOf_setGrad_self g j _ hi]; simp
  · rw [addGrad, gradOf_setGrad_ne g i j _ hne]; simp [Ne.symm hne]

theorem setGrad_sameShape (g : Graph) (i : NodeId) (q : ℚ) :
    SameShape g (setGrad g i q) := by
  refine ⟨length_setGrad g i q, fun c => ?_⟩
  rcases Nat.lt_or_ge i g.length with hi | hi
  · rcases eq_or_ne c i with rfl | hne
    · simp [nthNode_setGrad_self g c q hi]
    · simp [nthNode_setGrad_ne g i c q hne]
  · simp [nthNode_setGrad_big g i c q hi]

theorem sameShape_refl (g : Graph) : SameShape g g :=
  ⟨rfl, fun _ => ⟨rfl, rfl, rfl⟩⟩

theorem sameShape_trans {g1 g2 g3 : Graph} (h1 : SameShape g1 g2)
    (h2 : SameShape g2 g3) : SameShape g1 g3 := by
  refine ⟨h2.1.trans h1.1, fun c => ?_⟩
  obtain ⟨hd1, ho1, hp1⟩ := h1.2 c
  obtain ⟨hd2, ho2, hp2⟩ := h2.2 c
  exact ⟨hd2.trans hd1, ho2.trans ho1, hp2.trans hp1⟩

theorem addGrad_sameShape (g : Graph) (i : NodeId) (q : ℚ) :
    SameShape g (addGrad g i q) :=
  setGrad_sameShape g i _

theorem applyRule_sameShape (g : Graph) (i : NodeId) :
    SameShape g (applyRule g i) := by
  cases h : (nthNode g i).op with
  | none => simp only [applyRule, h]; exact sameShape_refl g
  | some o =>
      cases o <;> simp only [applyRule, h] <;>
        first
          | exact sameShape_trans (addGrad_sameShape _ _ _)
              (addGrad_sameShape _ _ _)
          | exact addGrad_sameShape _ _ _

theorem foldl_applyRule_sameShape (l : List NodeId) :
    ∀ g : Graph, SameShape g (l.foldl applyRule g) := by
  induction l with
  | nil => exact fun g => sameShape_refl g
  | cons x xs ih =>
      intro g
      exact sameShape_trans (applyRule_sameShape g x) (ih (applyRule g x))

theorem backward_sameShape (g : Graph) (root : NodeId) :
    SameShape g (backward g root) :=
  sameShape_trans (setGrad_sameShape g root 1)
    (foldl_applyRule_sameShape _ _)

theorem SameShape.prevOf_eq {g g2 : Graph} (h : SameShape g g2) (i : NodeId) :
    prevOf g2 i = prevOf g i := (h.2 i).2.2

theorem SameShape.dataOf_eq {g g2 : Graph} (h : SameShape g g2) (i : NodeId) :
    dataOf g2 i = dataOf g i := (h.2 i).1

theorem buildTopoF_congr (g g2 : Graph) (hp : ∀ i, prevOf g2 i = prevOf g i) :
    ∀ (fuel : Nat) (i : NodeId) (tv : List NodeId × List NodeId),
      buildTopoF g2 fuel i tv = buildTopoF g fuel i tv := by
  intro fuel
  induction fuel with
  | zero => intro i tv; rfl
  | succ f ih =>
      intro i tv
      have hfun : (fun tv2 c => buildTopoF g2 f c tv2)
          = fun tv2 c => buildTopoF g f c tv2 := by
        funext tv2 c; exact ih c tv2
      simp only [buildTopoF, hp, hfun]

theorem topoOf_congr (g g2 : Graph) (hp : ∀ i, prevOf g2 i = prevOf g i)
    (root : NodeId) : topoOf g2 root = topoOf g root := by
  simp [topoOf, buildTopoF_congr g g2 hp]

/-! ## Correctness of the depth-first post-order (`_build_topo`) -/

theorem append_singleton_eq {α : Type} {l t1 t2 : List α} {v x : α}
    (h : l ++ [x] = t1 ++ v :: t2) :
    (t1 = l ∧ v = x ∧ t2 = []) ∨ ∃ t3, t2 = t3 ++ [x] ∧ l = t1 ++ v :: t3 := by
  rcases List.eq_nil_or_concat t2 with rfl | ⟨t3, y, rfl⟩
  · have h2 := List.append_inj' h (by simp)
    refine Or.inl ⟨h2.1.symm, ?_, rfl⟩
    simpa using h2.2.symm
  · have h2 : l ++ [x] = (t1 ++ v :: t3) ++ [y] := by
      simpa [List.append_assoc, List.concat_eq_append] using h
    have h3 := List.append_inj' h2 (by simp)
    have hxy : x = y := by simpa using h3.2
    exact Or.inr ⟨t3, by rw [hxy, List.concat_eq_append], h3.1⟩

theorem ordOK_nil (g : Graph) : ordOK g [] := by
  intro t1 v t2 h c hc
  cases t1 <;> simp_all

theorem ordOK_append_last {g : Graph} {l : List NodeId} {v : NodeId}
    (h : ordOK g l) (hc : ∀ c ∈ prevOf g v, c ∈ l) : ordOK g (l ++ [v]) := by
  intro t1 w t2 heq c hcm
  rcases append_singleton_eq heq with ⟨rfl, rfl, rfl⟩ | ⟨t3, _, hl⟩
  · exact hc c hcm
  · exact h t1 w t3 hl c hcm

theorem ordOK_closed {g : Graph} {l : List NodeId} (h : ordOK g l) {v : NodeId}
    (hv : v ∈ l) {c : NodeId} (hc : c ∈ prevOf g v) : c ∈ l := by
  obtain ⟨s, t, rfl⟩ := List.append_of_mem hv
  exact List.mem_append_left _ (h s v t rfl c hc)

theorem reaches_mem {g : Graph} {l : List NodeId} (h : ordOK g l) :
    ∀ {i x : NodeId}, Reaches g i x → i ∈ l → x ∈ l := by
  intro i x hx
  induction hx with
  | refl j => exact fun hj => hj
  | step hc _ ih => exact fun hi => ih (ordOK_closed h hi hc)

theorem buildTopoF_fold_spec (g : Graph) (fuel : Nat)
    (IH : ∀ (i : NodeId) (topo visited : List NodeId),
      ((i < fuel ∧ ∀ x ∈ visited, x ∉ topo → i < x) ∨
        (prevOf g i = [] ∧ 1 ≤ fuel)) →
      ordOK g topo → topo.Nodup → (∀ x ∈ topo, x ∈ visited) →
      (∀ x ∈ visited, x ∉ topo → prevOf g x ≠ []) →
      TopoPost g topo visited (buildTopoF g fuel i (topo, visited)).1
        (buildTopoF g fuel i (topo, visited)).2 (Reaches g i) ∧
      i ∈ (buildTopoF g fuel i (topo, visited)).1) :
    ∀ (cs topo visited : List NodeId),
      (∀ c ∈ cs, (c < fuel ∧ ∀ x ∈ visited, x ∉ topo → c < x) ∨
        (prevOf g c = [] ∧ 1 ≤ fuel)) →
      ordOK g topo → topo.Nodup → (∀ x ∈ topo, x ∈ visited) →
      (∀ x ∈ visited, x ∉ topo → prevOf g x ≠ []) →
      TopoPost g topo visited
        (cs.foldl (fun tv c => buildTopoF g fuel c tv) (topo, visited)).1
        (cs.foldl (fun tv c => buildTopoF g fuel c tv) (topo, visited)).2
        (fun x => ∃ c ∈ cs, Reaches g c x) ∧
      ∀ c ∈ cs, c ∈ (cs.foldl (fun tv c => buildTopoF g fuel c tv)
        (topo, visited)).1 := by
  intro cs
  induction cs with
  | nil =>
      intro topo visited _ hord hnd hsub _
      refine ⟨⟨⟨[], by simp⟩, fun x h => h, fun x hv ht => ⟨hv, ht⟩,
        hord, hnd, hsub, fun x hx hnx => absurd hx hnx⟩, by simp⟩
  | cons c cs ih =>
      intro topo visited hlt hord hnd hsub hgraynl
      obtain ⟨⟨⟨d1, hd1⟩, hvm1, hg1, hord1, hnd1, hsub1, hnew1⟩, hc1⟩ :=
        IH c topo visited (hlt c (by simp)) hord hnd hsub hgraynl
      set r1 := buildTopoF g fuel c (topo, visited) with hr1
      obtain ⟨⟨⟨d2, hd2⟩, hvm2, hg2, hord2, hnd2, hsub2, hnew2⟩, hall2⟩ :=
        ih r1.1 r1.2
          (by
            intro c2 hc2
            rcases hlt c2 (by simp [hc2]) with ⟨hcf, hgr⟩ | hleaf
            · refine Or.inl ⟨hcf, fun x hv ht => ?_⟩
              obtain ⟨hv0, ht0⟩ := hg1 x hv ht
              exact hgr x hv0 ht0
            · exact Or.inr hleaf)
          hord1 hnd1 hsub1
          (fun x hv ht => hgraynl x (hg1 x hv ht).1 (hg1 x hv ht).2)
      have hfold : (c :: cs).foldl (fun tv c => buildTopoF g fuel c tv)
          (topo, visited)
          = cs.foldl (fun tv c => buildTopoF g fuel c tv) (r1.1, r1.2) := by
        simp [hr1]
      rw [hfold]
      constructor
      · refine ⟨⟨d1 ++ d2, by rw [hd2, hd1, List.append_assoc]⟩,
          fun x hx => hvm2 x (hvm1 x hx),
          fun x hv ht => ?_, hord2, hnd2, hsub2, fun x hx hnx => ?_⟩
        · obtain ⟨hv1, ht1⟩ := hg2 x hv ht
          exact hg1 x hv1 ht1
        · by_cases hx1 : x ∈ r1.1
          · obtain ⟨hr, hnv⟩ := hnew1 x hx1 hnx
            exact ⟨⟨c, by simp, hr⟩, hnv⟩
          · obtain ⟨⟨c2, hc2, hr⟩, hnv⟩ := hnew2 x hx hx1
            refine ⟨⟨c2, by simp [hc2], hr⟩, fun hv => hnv (hvm1 x hv)⟩
      · intro c2 hc2
        rcases List.mem_cons.mp hc2 with rfl | hc2
        · rw [hd2]; exact List.mem_append_left _ hc1
        · exact hall2 c2 hc2

theorem buildTopoF_call_spec (g : Graph) (hWF : WF g) :
    ∀ (fuel : Nat) (i : NodeId) (topo visited : List NodeId),
      ((i < fuel ∧ ∀ x ∈ visited, x ∉ topo → i < x) ∨
        (prevOf g i = [] ∧ 1 ≤ fuel)) →
      ordOK g topo → topo.Nodup → (∀ x ∈ topo, x ∈ visited) →
      (∀ x ∈ visited, x ∉ topo → prevOf g x ≠ []) →
      TopoPost g topo visited (buildTopoF g fuel i (topo, visited)).1
        (buildTopoF g fuel i (topo, visited)).2 (Reaches g i) ∧
      i ∈ (buildTopoF g fuel i (topo, visited)).1 := by
  intro fuel
  induction fuel with
  | zero =>
      intro i topo visited h
      rcases h with ⟨h1, _⟩ | ⟨_, h2⟩
      · exact absurd h1 (Nat.not_lt_zero i)
      · exact absurd h2 (Nat.not_succ_le_zero 0)
  | succ f ihf =>
      intro i topo visited hentry hord hnd hsub hgraynl
      by_cases hmem : i ∈ visited
      · have heq : buildTopoF g (f + 1) i (topo, visited) = (topo, visited) := by
          simp [buildTopoF, hmem]
        rw [heq]
        have hit : i ∈ topo := by
          by_contra hit
          rcases hentry with ⟨_, hgray⟩ | ⟨hpe, _⟩
          · exact absurd (hgray i hmem hit) (lt_irrefl i)
          · exact hgraynl i hmem hit hpe
        exact ⟨⟨⟨[], by simp⟩, fun x h => h, fun x hv ht => ⟨hv, ht⟩,
          hord, hnd, hsub, fun x hx hnx => absurd hx hnx⟩, hit⟩
      · by_cases hpi : prevOf g i = []
        · have heq : buildTopoF g (f + 1) i (topo, visited)
              = (topo ++ [i], i :: visited) := by
            simp [buildTopoF, hmem, hpi]
          rw [heq]
          have hit : i ∉ topo := fun h => hmem (hsub i h)
          constructor
          · refine ⟨⟨[i], rfl⟩, fun x hx => List.mem_cons_of_mem i hx,
              fun x hv ht => ?_,
              ordOK_append_last hord
                (by rw [hpi]; intro c hc; exact absurd hc (List.not_mem_nil c)),
              ?_, fun x hx => ?_, fun x hx hnx => ?_⟩
            · have hxi : x ≠ i := fun h => ht (by simp [h])
              rcases List.mem_cons.mp hv with rfl | hv2
              · exact absurd rfl hxi
              · exact ⟨hv2, fun h => ht (List.mem_append_left _ h)⟩
            · rw [List.nodup_append]
              exact ⟨hnd, List.nodup_singleton i, by
                intro a ha hb
                rw [List.mem_singleton] at hb
                exact hit (hb ▸ ha)⟩
            · rcases List.mem_append.mp hx with hx1 | hx2
              · exact List.mem_cons_of_mem i (hsub x hx1)
              · rw [List.mem_singleton] at hx2
                simp [hx2]
            · rcases List.mem_append.mp hx with hx1 | hx2
              · exact absurd hx1 hnx
              · rw [List.mem_singleton] at hx2
                subst hx2
                exact ⟨Reaches.refl x, hmem⟩
          · exact List.mem_append_right _ (by simp)
        · rcases hentry with ⟨hif, hgray⟩ | ⟨hpe, _⟩
          swap
          · exact absurd hpe hpi
          have heq : buildTopoF g (f + 1) i (topo, visited)
              = ((((prevOf g i).foldl (fun tv c => buildTopoF g f c tv)
                  (topo, i :: visited))).1 ++ [i],
                 ((prevOf g i).foldl (fun tv c => buildTopoF g f c tv)
                  (topo, i :: visited)).2) := by
            simp [buildTopoF, hmem]
          have hilen : i < g.length := by
            by_contra hge
            exact hpi (prevOf_big g i (Nat.le_of_not_lt hge))
          obtain ⟨har, hget0, hchild⟩ := hWF i hilen
          have hipos : 1 ≤ i :=
            Nat.lt_of_le_of_lt (Nat.zero_le _) (hget0 hpi)
          have hif2 : i ≤ f := Nat.lt_succ_iff.mp hif
          obtain ⟨⟨⟨d2, hd2⟩, hvm, hg, hordp, hndp, hsubp, hnewp⟩, hallp⟩ :=
            buildTopoF_fold_spec g f ihf (prevOf g i) topo (i :: visited)
              (by
                intro c hc
                rcases hchild c hc with hclt | ⟨_, _, hcleaf, _⟩
                · refine Or.inl ⟨Nat.lt_of_lt_of_le hclt hif2,
                    fun x hv ht => ?_⟩
                  rcases List.mem_cons.mp hv with rfl | hv2
                  · exact hclt
                  · exact Nat.lt_trans hclt (hgray x hv2 ht)
                · exact Or.inr ⟨hcleaf, Nat.le_trans hipos hif2⟩)
              hord hnd (fun x hx => List.mem_cons_of_mem i (hsub x hx))
              (by
                intro x hv ht
                rcases List.mem_cons.mp hv with rfl | hv2
                · exact hpi
                · exact hgraynl x hv2 ht)
          rw [heq]
          set T := ((prevOf g i).foldl (fun tv c => buildTopoF g f c tv)
            (topo, i :: visited)).1 with hT
          set V := ((prevOf g i).foldl (fun tv c => buildTopoF g f c tv)
            (topo, i :: visited)).2 with hV
          have hinT : i ∉ T := by
            intro hiT
            by_cases hit : i ∈ topo
            · exact hmem (hsub i hit)
            · exact (hnewp i hiT hit).2 (by simp)
          constructor
          · refine ⟨⟨d2 ++ [i], by rw [hd2, List.append_assoc]⟩,
              fun x hx => hvm x (List.mem_cons_of_mem i hx),
              fun x hv ht => ?_,
              ordOK_append_last hordp hallp,
              ?_,
              fun x hx => ?_,
              fun x hx hnx => ?_⟩
            · have hxT : x ∉ T := fun h => ht (List.mem_append_left _ h)
              have hxi : x ≠ i := fun h => ht (by simp [h])
              obtain ⟨hv2, ht2⟩ := hg x hv hxT
              rcases List.mem_cons.mp hv2 with rfl | hv3
              · exact absurd rfl hxi
              · exact ⟨hv3, ht2⟩
            · rw [List.nodup_append]
              exact ⟨hndp, List.nodup_singleton i, by
                intro a ha hb
                rw [List.mem_singleton] at hb
                exact hinT (hb ▸ ha)⟩
            · rcases List.mem_append.mp hx with hx1 | hx2
              · exact hsubp x hx1
              · rw [List.mem_singleton] at hx2
                exact hvm x (by simp [hx2])
            · rcases List.mem_append.mp hx with hx1 | hx2
              · by_cases hxt : x ∈ topo
                · exact absurd hxt hnx
                · obtain ⟨⟨c, hc, hr⟩, hnv⟩ := hnewp x hx1 hxt
                  exact ⟨Reaches.step hc hr, fun hv => hnv (by simp [hv])⟩
              · rw [List.mem_singleton] at hx2
                subst hx2
                exact ⟨Reaches.refl x, hmem⟩
          · exact List.mem_append_right _ (by simp)

theorem topoOf_spec (g : Graph) (root : NodeId) (hWF : WF g) :
    TopoPost g [] [] (topoOf g root)
      (buildTopoF g (root + 1) root ([], [])).2 (Reaches g root) ∧
    root ∈ topoOf g root :=
  buildTopoF_call_spec g hWF (root + 1) root [] []
    (Or.inl ⟨Nat.lt_succ_self root,
      fun x hx => absurd hx (List.not_mem_nil x)⟩)
    (ordOK_nil g) List.nodup_nil (fun x hx => absurd hx (List.not_mem_nil x))
    (fun x hx => absurd hx (List.not_mem_nil x))

/-! ## Forward values of the constructors -/

theorem nthNode_append_last (g : Graph) (n : Node) :
    nthNode (g ++ [n]) g.length = n := by
  rw [nthNode_append_ge g [n] g.length (le_refl _)]
  simp [nthNode]

theorem nthNode_append_two (g : Graph) (n1 n2 : Node) :
    nthNode (g ++ [n1, n2]) g.length = n1 ∧
    nthNode (g ++ [n1, n2]) (g.length + 1) = n2 := by
  constructor <;> rw [nthNode_append_ge g _ _ (by omega)] <;> simp [nthNode]

theorem dataOf_mkLit (g : Graph) (x : ℚ) :
    dataOf (mkLit g x).1 (mkLit g x).2 = x := by
  simp [mkLit, dataOf, nthNode_append_last]

theorem dataOf_vadd (g : Graph) (a b : NodeId) :
    dataOf (vadd g a b).1 (vadd g a b).2 = dataOf g a + dataOf g b := by
  simp [vadd, dataOf, nthNode_append_last]

theorem dataOf_vmul (g : Graph) (a b : NodeId) :
    dataOf (vmul g a b).1 (vmul g a b).2 = dataOf g a * dataOf g b := by
  simp [vmul, dataOf, nthNode_append_last]

theorem dataOf_vrelu (g : Graph) (a : NodeId) :
    dataOf (vrelu g a).1 (vrelu g a).2 = max (dataOf g a) 0 := by
  simp [vrelu, dataOf, nthNode_append_last]

theorem dataOf_vpow (g : Graph) (a : NodeId) (p : ℚ) :
    dataOf (vpow g a p).1 (vpow g a p).2 = powf (dataOf g a) p := by
  simp [vpow, dataOf, (nthNode_append_two g _ _).1]

theorem dataOf_append_lt (g t : Graph) (i : NodeId) (h : i < g.length) :
    dataOf (g ++ t) i = dataOf g i := by
  simp [dataOf, nthNode_append_lt g t i h]

theorem gradOf_append_lt (g t : Graph) (i : NodeId) (h : i < g.length) :
    gradOf (g ++ t) i = gradOf g i := by
  simp [gradOf, nthNode_append_lt g t i h]

/-! ## The effect of one rule application on gradients -/

theorem prev_getD_lt (g : Graph) (hWF : WF g) (i : NodeId) (hi : i < g.length)
    (k : Nat) : (prevOf g i).getD k 0 < g.length := by
  by_cases hk : k < (prevOf g i).length
  · have hmem : (prevOf g i).getD k 0 ∈ prevOf g i := by
      rw [show (prevOf g i).getD k 0 = (prevOf g i).get ⟨k, hk⟩ from by
        simp [List.getD, List.getElem?_eq_getElem hk]]
      exact List.get_mem _ _ _
    rcases (hWF i hi).2.2 _ hmem with hlt | ⟨_, hlen, _, _⟩
    · exact Nat.lt_trans hlt hi
    · exact hlen
  · rw [show (prevOf g i).getD k 0 = 0 from by
      simp [List.getD, List.getElem?_eq_none (Nat.le_of_not_lt hk)]]
    exact Nat.lt_of_le_of_lt (Nat.zero_le i) hi

theorem gradOf_applyRule (g : Graph) (i : NodeId)
    (hp0 : (prevOf g i).getD 0 0 < g.length)
    (hp1 : (prevOf g i).getD 1 0 < g.length) (c : NodeId) :
    gradOf (applyRule g i) c = gradOf g c + contribOf g i c := by
  simp only [prevOf] at hp0 hp1
  cases hop : (nthNode g i).op with
  | none => simp [applyRule, contribOf, hop]
  | some o =>
      cases o <;> simp only [applyRule, contribOf, hop] <;>
        first
          | (rw [gradOf_addGrad _ _ _ _ (by rw [length_addGrad]; exact hp1),
              gradOf_addGrad _ _ _ _ hp0, add_assoc])
          | rw [gradOf_addGrad _ _ _ _ hp0]

theorem contribOf_congr (G G2 : Graph) (i c : NodeId)
    (hn : nthNode G2 i = nthNode G i) (hd : ∀ x, dataOf G2 x = dataOf G x) :
    contribOf G2 i c = contribOf G i c := by
  simp only [contribOf, hn, hd]

theorem contribOf_self (G : Graph) (i : NodeId)
    (hne : ∀ c ∈ prevOf G i, c ≠ i) (har : arity (nthNode G i)) :
    contribOf G i i = 0 := by
  cases hop : (nthNode G i).op with
  | none => simp [contribOf, hop]
  | some o =>
      cases o
      case relu =>
        have h1 : (nthNode G i).prev.length = 1 := by
          unfold arity at har; rw [hop] at har; exact har
        obtain ⟨a, ha⟩ := List.length_eq_one.mp h1
        have halt := hne a (by rw [prevOf, ha]; simp)
        simp [contribOf, hop, ha, halt]
      all_goals
        have h2 : (nthNode G i).prev.length = 2 := by
          unfold arity at har; rw [hop] at har; exact har
      all_goals obtain ⟨a, b, hab⟩ := List.length_eq_two.mp h2
      all_goals
        have halt := hne a (by rw [prevOf, hab]; simp)
      all_goals
        have hblt := hne b (by rw [prevOf, hab]; simp)
      all_goals
        simp [contribOf, hop, hab, halt, hblt]

theorem arity_grad_irrel (d gr gr2 : ℚ) (o : Option Op) (p : List NodeId)
    (h : arity ⟨d, gr, o, p⟩) : arity ⟨d, gr2, o, p⟩ := by
  cases o with
  | none => exact h
  | some oo => cases oo <;> exact h

theorem WF_of_sameShape {g g2 : Graph} (h : SameShape g g2) (hWF : WF g) :
    WF g2 := by
  intro i hi
  have hi2 : i < g.length := by rw [← h.1]; exact hi
  obtain ⟨har, hget0, hchild⟩ := hWF i hi2
  have hpeq : ∀ j, prevOf g2 j = prevOf g j := fun j => (h.2 j).2.2
  refine ⟨?_, ?_, ?_⟩
  · rcases hg2 : nthNode g2 i with ⟨d2, gr2, o2, p2⟩
    rcases hg1 : nthNode g i with ⟨d1, gr1, o1, p1⟩
    obtain ⟨hdata, hopp, hprevv⟩ := h.2 i
    rw [hg2, hg1] at hdata hopp hprevv
    rw [hg1] at har
    simp only at hdata hopp hprevv
    subst hdata; subst hopp; subst hprevv
    exact arity_grad_irrel _ _ _ _ _ har
  · intro hne
    rw [hpeq i] at hne ⊢
    exact hget0 hne
  · intro c hc
    rw [hpeq i] at hc
    rcases hchild c hc with hclt | ⟨hceq, hclen, hcprev, hcop⟩
    · exact Or.inl hclt
    · exact Or.inr ⟨hceq, by rw [h.1]; exact hclen,
        by rw [hpeq c]; exact hcprev,
        by rw [(h.2 c).2.1]; exact hcop⟩

/-! ## Every graph built through the operator API is WF -/

theorem WF_nil : WF [] := by
  intro i hi
  exact absurd hi (by simp)

theorem WF_extend (g t : Graph) (hWF : WF g)
    (hnew : ∀ i, g.length ≤ i → i < (g ++ t).length →
      arity (nthNode (g ++ t) i) ∧
      (prevOf (g ++ t) i ≠ [] → (prevOf (g ++ t) i).getD 0 0 < i) ∧
      ∀ c ∈ prevOf (g ++ t) i, c < i ∨
        (c = i + 1 ∧ c < (g ++ t).length ∧ prevOf (g ++ t) c = [] ∧
          (nthNode (g ++ t) c).op = none)) :
    WF (g ++ t) := by
  intro i hi
  rcases Nat.lt_or_ge i g.length with hlt | hge
  · obtain ⟨har, hget0, hchild⟩ := hWF i hlt
    have hpeq : prevOf (g ++ t) i = prevOf g i := by
      simp [prevOf, nthNode_append_lt g t i hlt]
    refine ⟨?_, ?_, ?_⟩
    · rw [nthNode_append_lt g t i hlt]; exact har
    · rw [hpeq]; exact hget0
    · rw [hpeq]
      intro c hc
      rcases hchild c hc with h1 | ⟨hceq, hclen, hcprev, hcop⟩
      · exact Or.inl h1
      · refine Or.inr ⟨hceq, Nat.lt_of_lt_of_le hclen (by simp), ?_, ?_⟩
        · rw [show prevOf (g ++ t) c = prevOf g c from by
            simp [prevOf, nthNode_append_lt g t c hclen]]
          exact hcprev
        · rw [nthNode_append_lt g t c hclen]; exact hcop
  · exact hnew i hge hi

theorem WF_mkLit (g : Graph) (x : ℚ) (hWF : WF g) : WF (mkLit g x).1 := by
  show WF (g ++ [⟨x, 0, none, []⟩])
  apply WF_extend g _ hWF
  intro i hge hi
  have hieq : i = g.length := by
    have : (g ++ [(⟨x, 0, none, []⟩ : Node)]).length = g.length + 1 := by simp
    rw [this] at hi
    exact Nat.le_antisymm (Nat.lt_succ_iff.mp hi) hge
  subst hieq
  have hnode := nthNode_append_last g (⟨x, 0, none, []⟩ : Node)
  refine ⟨?_, ?_, ?_⟩
  · rw [hnode]; exact rfl
  · rw [show prevOf (g ++ [(⟨x, 0, none, []⟩ : Node)]) g.length = [] from by
      simp [prevOf, hnode]]
    intro hne
    exact absurd rfl hne
  · rw [show prevOf (g ++ [(⟨x, 0, none, []⟩ : Node)]) g.length = [] from by
      simp [prevOf, hnode]]
    intro c hc
    exact absurd hc (List.not_mem_nil c)

theorem WF_append_binary (g : Graph) (d : ℚ) (o : Op) (a b : NodeId)
    (hWF : WF g) (ho : o ≠ Op.relu) (ha : a < g.length) (hb : b < g.length) :
    WF (g ++ [⟨d, 0, some o, [a, b]⟩]) := by
  apply WF_extend g _ hWF
  intro i hge hi
  have hieq : i = g.length := by
    have : (g ++ [(⟨d, 0, some o, [a, b]⟩ : Node)]).length = g.length + 1 := by
      simp
    rw [this] at hi
    exact Nat.le_antisymm (Nat.lt_succ_iff.mp hi) hge
  subst hieq
  have hnode := nthNode_append_last g (⟨d, 0, some o, [a, b]⟩ : Node)
  have hpeq : prevOf (g ++ [(⟨d, 0, some o, [a, b]⟩ : Node)]) g.length
      = [a, b] := by
    simp [prevOf, hnode]
  refine ⟨?_, ?_, ?_⟩
  · rw [hnode]
    cases o with
    | relu => exact absurd rfl ho
    | add => exact rfl
    | mul => exact rfl
    | pow => exact rfl
  · rw [hpeq]; intro _; exact ha
  · rw [hpeq]
    intro c hc
    rcases List.mem_cons.mp hc with rfl | hc2
    · exact Or.inl ha
    · rw [List.mem_singleton] at hc2
      subst hc2
      exact Or.inl hb

theorem WF_vadd (g : Graph) (a b : NodeId) (hWF : WF g) (ha : a < g.length)
    (hb : b < g.length) : WF (vadd g a b).1 :=
  WF_append_binary g _ Op.add a b hWF (by intro h; cases h) ha hb

theorem WF_vmul (g : Graph) (a b : NodeId) (hWF : WF g) (ha : a < g.length)
    (hb : b < g.length) : WF (vmul g a b).1 :=
  WF_append_binary g _ Op.mul a b hWF (by intro h; cases h) ha hb

theorem WF_vrelu (g : Graph) (a : NodeId) (hWF : WF g) (ha : a < g.length) :
    WF (vrelu g a).1 := by
  show WF (g ++ [⟨max (dataOf g a) 0, 0, some Op.relu, [a]⟩])
  apply WF_extend g _ hWF
  intro i hge hi
  have hieq : i = g.length := by
    have : (g ++ [(⟨max (dataOf g a) 0, 0, some Op.relu, [a]⟩ : Node)]).length
        = g.length + 1 := by simp
    rw [this] at hi
    exact Nat.le_antisymm (Nat.lt_succ_iff.mp hi) hge
  subst hieq
  have hnode :=
    nthNode_append_last g (⟨max (dataOf g a) 0, 0, some Op.relu, [a]⟩ : Node)
  have hpeq : prevOf (g ++ [(⟨max (dataOf g a) 0, 0, some Op.relu, [a]⟩ :
      Node)]) g.length = [a] := by
    simp [prevOf, hnode]
  refine ⟨?_, ?_, ?_⟩
  · rw [hnode]; exact rfl
  · rw [hpeq]; intro _; exact ha
  · rw [hpeq]
    intro c hc
    rw [List.mem_singleton] at hc
    subst hc
    exact Or.inl ha

theorem WF_vpow (g : Graph) (a : NodeId) (p : ℚ) (hWF : WF g)
    (ha : a < g.length) : WF (vpow g a p).1 := by
  show WF (g ++ [⟨powf (dataOf g a) p, 0, some Op.pow, [a, g.length + 1]⟩,
    ⟨p, 0, none, []⟩])
  apply WF_extend g _ hWF
  intro i hge hi
  have hlen : (g ++ [(⟨powf (dataOf g a) p, 0, some Op.pow,
      [a, g.length + 1]⟩ : Node), ⟨p, 0, none, []⟩]).length
      = g.length + 2 := by simp
  have hout := (nthNode_append_two g
    (⟨powf (dataOf g a) p, 0, some Op.pow, [a, g.length + 1]⟩ : Node)
    (⟨p, 0, none, []⟩ : Node)).1
  have hexp := (nthNode_append_two g
    (⟨powf (dataOf g a) p, 0, some Op.pow, [a, g.length + 1]⟩ : Node)
    (⟨p, 0, none, []⟩ : Node)).2
  have hexpprev : prevOf (g ++ [(⟨powf (dataOf g a) p, 0, some Op.pow,
      [a, g.length + 1]⟩ : Node), ⟨p, 0, none, []⟩]) (g.length + 1) = [] := by
    simp [prevOf, hexp]
  rcases Nat.lt_or_ge i (g.length + 1) with hi1 | hi1
  · have hieq : i = g.length := Nat.le_antisymm (Nat.lt_succ_iff.mp hi1) hge
    subst hieq
    have hpeq : prevOf (g ++ [(⟨powf (dataOf g a) p, 0, some Op.pow,
        [a, g.length + 1]⟩ : Node), ⟨p, 0, none, []⟩]) g.length
        = [a, g.length + 1] := by
      simp [prevOf, hout]
    refine ⟨?_, ?_, ?_⟩
    · rw [hout]; exact rfl
    · rw [hpeq]; intro _; exact ha
    · rw [hpeq]
      intro c hc
      rcases List.mem_cons.mp hc with rfl | hc2
      · exact Or.inl ha
      · rw [List.mem_singleton] at hc2
        subst hc2
        refine Or.inr ⟨rfl, ?_, hexpprev, by rw [hexp]⟩
        rw [hlen]
        exact Nat.lt_succ_self _
  · have hieq : i = g.length + 1 := by
      rw [hlen] at hi
      exact Nat.le_antisymm (Nat.lt_succ_iff.mp hi) hi1
    subst hieq
    refine ⟨?_, ?_, ?_⟩
    · rw [hexp]; exact rfl
    · rw [hexpprev]; intro hne; exact absurd rfl hne
    · rw [hexpprev]; intro c hc; exact absurd hc (List.not_mem_nil c)

theorem length_mkLit (g : Graph) (x : ℚ) :
    (mkLit g x).1.length = g.length + 1 := by simp [mkLit]

theorem length_vpow (g : Graph) (a : NodeId) (p : ℚ) :
    (vpow g a p).1.length = g.length + 2 := by simp [vpow]

theorem WF_vneg (g : Graph) (a : NodeId) (hWF : WF g) (ha : a < g.length) :
    WF (vneg g a).1 := by
  show WF (vmul (mkLit g (-1)).1 a (mkLit g (-1)).2).1
  apply WF_vmul _ _ _ (WF_mkLit g (-1) hWF)
  · rw [length_mkLit]; exact Nat.lt_succ_of_lt ha
  · show g.length < (mkLit g (-1)).1.length
    rw [length_mkLit]; exact Nat.lt_succ_self _

theorem length_vneg (g : Graph) (a : NodeId) :
    (vneg g a).1.length = g.length + 2 := by simp [vneg, vmul, mkLit]

theorem WF_vsub (g : Graph) (a b : NodeId) (hWF : WF g) (ha : a < g.length)
    (hb : b < g.length) : WF (vsub g a b).1 := by
  show WF (vadd (vneg g b).1 a (vneg g b).2).1
  apply WF_vadd _ _ _ (WF_vneg g b hWF hb)
  · rw [length_vneg]; exact Nat.lt_of_lt_of_le ha (by omega)
  · show (mkLit g (-1)).1.length < (vneg g b).1.length
    rw [length_vneg, length_mkLit]; exact Nat.lt_succ_self _

theorem WF_vdiv (g : Graph) (a b : NodeId) (hWF : WF g) (ha : a < g.length)
    (hb : b < g.length) : WF (vdiv g a b).1 := by
  show WF (vmul (vpow g b (-1)).1 a (vpow g b (-1)).2).1
  apply WF_vmul _ _ _ (WF_vpow g b (-1) hWF hb)
  · rw [length_vpow]; exact Nat.lt_of_lt_of_le ha (by omega)
  · show g.length < (vpow g b (-1)).1.length
    rw [length_vpow]; omega

/-! ## Backward over a leaf-rooted fringe -/

theorem applyRule_none (g : Graph) (x : NodeId)
    (h : (nthNode g x).op = none) : applyRule g x = g := by
  simp [applyRule, h]

theorem foldl_applyRule_noop : ∀ (l : List NodeId) (g : Graph),
    (∀ x ∈ l, (nthNode g x).op = none) → l.foldl applyRule g = g := by
  intro l
  induction l with
  | nil => intro g _; rfl
  | cons x xs ih =>
      intro g h
      rw [List.foldl_cons, applyRule_none g x (h x (by simp))]
      exact ih g (fun y hy => h y (by simp [hy]))

theorem buildTopoF_leaves (g : Graph) (f : Nat) :
    ∀ (cs topo visited : List NodeId), (∀ c ∈ cs, prevOf g c = []) →
      ∃ d vis2,
        cs.foldl (fun tv c => buildTopoF g (f + 1) c tv) (topo, visited)
          = (topo ++ d, vis2) ∧ ∀ x ∈ d, x ∈ cs := by
  intro cs
  induction cs with
  | nil => intro topo visited _; exact ⟨[], visited, by simp, by simp⟩
  | cons c cs ih =>
      intro topo visited h
      simp only [List.foldl_cons]
      by_cases hc : c ∈ visited
      · have h1 : buildTopoF g (f + 1) c (topo, visited) = (topo, visited) := by
          simp [buildTopoF, hc]
        rw [h1]
        obtain ⟨d, vis2, hd, hsub⟩ := ih topo visited
          (fun x hx => h x (by simp [hx]))
        exact ⟨d, vis2, hd, fun x hx => by simp [hsub x hx]⟩
      · have h1 : buildTopoF g (f + 1) c (topo, visited)
            = (topo ++ [c], c :: visited) := by
          simp [buildTopoF, hc, h c (by simp)]
        rw [h1]
        obtain ⟨d, vis2, hd, hsub⟩ := ih (topo ++ [c]) (c :: visited)
          (fun x hx => h x (by simp [hx]))
        refine ⟨c :: d, vis2, by rw [hd]; simp, fun x hx => ?_⟩
        rcases List.mem_cons.mp hx with rfl | hx2
        · simp
        · simp [hsub x hx2]

theorem backward_leaf_rooted (g : Graph) (root : NodeId) (hWF : WF g)
    (hroot : root < g.length)
    (hpleaf : ∀ c ∈ prevOf g root, prevOf g c = [])
    (hleafop : ∀ c ∈ prevOf g root, (nthNode g c).op = none) :
    backward g root = applyRule (setGrad g root 1) root := by
  by_cases hpe : prevOf g root = []
  · have htopo : topoOf g root = [root] := by
      simp [topoOf, buildTopoF, hpe]
    rw [backward, htopo]
    simp
  · have hpos : 0 < root :=
      Nat.lt_of_le_of_lt (Nat.zero_le _) ((hWF root hroot).2.1 hpe)
    obtain ⟨f, rfl⟩ : ∃ f, root = f + 1 :=
      ⟨root - 1, (Nat.succ_pred_eq_of_pos hpos).symm⟩
    obtain ⟨d, vis2, hd, hsub⟩ :=
      buildTopoF_leaves g f (prevOf g (f + 1)) [] [f + 1] hpleaf
    have htopo : topoOf g (f + 1) = d ++ [f + 1] := by
      rw [topoOf]
      rw [show buildTopoF g ((f + 1) + 1) (f + 1) ([], [])
          = (((prevOf g (f + 1)).foldl (fun tv c => buildTopoF g (f + 1) c tv)
              ([], [f + 1])).1 ++ [f + 1],
             ((prevOf g (f + 1)).foldl (fun tv c => buildTopoF g (f + 1) c tv)
              ([], [f + 1])).2) from by simp [buildTopoF]]
      rw [hd]
      simp
    rw [backward, htopo]
    rw [show (d ++ [f + 1]).reverse = (f + 1) :: d.reverse from by simp]
    rw [List.foldl_cons]
    apply foldl_applyRule_noop
    intro x hx
    have hxc : x ∈ prevOf g (f + 1) := hsub x (List.mem_reverse.mp hx)
    have hsh : SameShape g (applyRule (setGrad g (f + 1) 1) (f + 1)) :=
      sameShape_trans (setGrad_sameShape g (f + 1) 1) (applyRule_sameShape _ _)
    rw [(hsh.2 x).2.1]
    exact hleafop x hxc

/-! ## Claims -/

/-- C1.  For every graph built through the operator API (`WF`), the visitation
order computed by `backward(root)` contains each node reachable from `root`
exactly once (membership is exactly reachability, and the list has no
duplicates), the reversed post-order places every node strictly before all of
its operands (each operand of an element occurs in the remainder of the
reversed list), and `backward` runs exactly one rule application per entry of
that reversed list. -/
theorem backward_visits_once_in_order (g : Graph) (root : NodeId)
    (hWF : WF g) :
    (∀ x, x ∈ topoOf g root ↔ Reaches g root x) ∧
    (topoOf g root).Nodup ∧
    (∀ t1 v t2, (topoOf g root).reverse = t1 ++ v :: t2 →
      ∀ c ∈ prevOf g v, c ∈ t2) ∧
    backward g root
      = (topoOf g root).reverse.foldl applyRule (setGrad g root 1) := by
  obtain ⟨⟨⟨d, hd⟩, _, _, hord, hnd, _, hnew⟩, hroot⟩ := topoOf_spec g root hWF
  refine ⟨fun x => ⟨fun hx => (hnew x hx (List.not_mem_nil x)).1,
      fun hx => reaches_mem hord hx hroot⟩, hnd, ?_, rfl⟩
  intro t1 v t2 hrev c hc
  have htopo : topoOf g root = t2.reverse ++ v :: t1.reverse := by
    have h2 := congrArg List.reverse hrev
    simpa [List.reverse_append] using h2
  exact List.mem_reverse.mp (hord t2.reverse v t1.reverse htopo c hc)

/-- Witness for C1 at the full golden graph of `src/main.rs` — a graph that
contains shared subexpressions as well as `pow` and `divide` calls (hence
exponent literals), rooted at its output `g`. -/
theorem backward_visits_once_in_order_witness :
    WF golden.1 ∧
    ((∀ x, x ∈ topoOf golden.1 golden.2 ↔ Reaches golden.1 golden.2 x) ∧
     (topoOf golden.1 golden.2).Nodup ∧
     (∀ t1 v t2, (topoOf golden.1 golden.2).reverse = t1 ++ v :: t2 →
       ∀ c ∈ prevOf golden.1 v, c ∈ t2) ∧
     backward golden.1 golden.2
       = (topoOf golden.1 golden.2).reverse.foldl applyRule
          (setGrad golden.1 golden.2 1)) :=
  ⟨by with_unfolding_all decide,
   backward_visits_once_in_order golden.1 golden.2
     (by with_unfolding_all decide)⟩

set_option maxRecDepth 400000 in
/-- C2.  End-to-end golden values of the worked example of `src/main.rs`:
the forward value of `g` is within 1e-3 of 24.7041, and after `backward(g)`
the gradient of `a` (id 0) is within 1e-3 of 138.8338 and the gradient of
`b` (id 1) is within 1e-3 of 645.5773.  (The exact rational values are
2421/98, 47620/343 and 221433/343.) -/
theorem golden_end_to_end :
    |dataOf golden.1 golden.2 - 247041 / 10000| < 1 / 1000 ∧
    |gradOf (backward golden.1 golden.2) 0 - 1388338 / 10000| < 1 / 1000 ∧
    |gradOf (backward golden.1 golden.2) 1 - 6455773 / 10000| < 1 / 1000 := by
  with_unfolding_all decide

/-- C3.  Diamond graph `a = 2`, `b = -3`, `c = add(a,b)`, `d = multiply(a,c)`:
after `backward(d)` the gradient of `a` equals `c.value + a.value * 1`,
numerically 1. -/
theorem diamond_chain_rule :
    gradOf (backward diamondD.1 diamondD.2) diamondA.2
        = dataOf diamondD.1 diamondC.2 + dataOf diamondD.1 diamondA.2 * 1 ∧
    gradOf (backward diamondD.1 diamondD.2) diamondA.2 = 1 := by
  with_unfolding_all decide

/-- C5 counterexample: `pow` does not allocate exactly one node — it appends
two, the output and a fresh literal node holding the exponent. -/
theorem pow_allocates_two_cex :
    (vpow (mkLit [] 3).1 0 2).1.length = (mkLit [] 3).1.length + 2 ∧
    (vpow (mkLit [] 3).1 0 2).1.length ≠ (mkLit [] 3).1.length + 1 := by
  with_unfolding_all decide

/-- C5 amended.  `add`, `multiply` and `relu` allocate exactly one new node
and `pow` exactly two (output plus exponent literal); no call mutates any
field of an existing node — the old arena is preserved verbatim. -/
theorem operator_frame (g : Graph) (a b : NodeId) (p : ℚ) (i : NodeId)
    (hi : i < g.length) :
    (vadd g a b).1.length = g.length + 1 ∧
    (vmul g a b).1.length = g.length + 1 ∧
    (vrelu g a).1.length = g.length + 1 ∧
    (vpow g a p).1.length = g.length + 2 ∧
    nthNode (vadd g a b).1 i = nthNode g i ∧
    nthNode (vmul g a b).1 i = nthNode g i ∧
    nthNode (vrelu g a).1 i = nthNode g i ∧
    nthNode (vpow g a p).1 i = nthNode g i := by
  refine ⟨by simp [vadd], by simp [vmul], by simp [vrelu], by simp [vpow], ?_,
    ?_, ?_, ?_⟩ <;> exact nthNode_append_lt g _ i hi

/-- Witness for C5 amended at the diamond graph prefix `[a, b]`. -/
theorem operator_frame_witness :
    (0 < diamondB.1.length) ∧
    ((vadd diamondB.1 0 1).1.length = diamondB.1.length + 1 ∧
     (vmul diamondB.1 0 1).1.length = diamondB.1.length + 1 ∧
     (vrelu diamondB.1 0).1.length = diamondB.1.length + 1 ∧
     (vpow diamondB.1 0 2).1.length = diamondB.1.length + 2 ∧
     nthNode (vadd diamondB.1 0 1).1 0 = nthNode diamondB.1 0 ∧
     nthNode (vmul diamondB.1 0 1).1 0 = nthNode diamondB.1 0 ∧
     nthNode (vrelu diamondB.1 0).1 0 = nthNode diamondB.1 0 ∧
     nthNode (vpow diamondB.1 0 2).1 0 = nthNode diamondB.1 0) :=
  ⟨by with_unfolding_all decide,
   operator_frame diamondB.1 0 1 2 0 (by with_unfolding_all decide)⟩

/-- C6.  `power(x, p)` with `x = 3`, `p = 2`: the output value is `x^p = 9`,
and after `backward` on the output the exponent node (id 2) keeps gradient 0
while `x` (id 0) gets gradient `p * x^(p-1) = 6`. -/
theorem pow_constant_exponent :
    dataOf powEx.1 powEx.2 = 9 ∧
    gradOf (backward powEx.1 powEx.2) 2 = 0 ∧
    gradOf (backward powEx.1 powEx.2) 0 = 6 := by
  with_unfolding_all decide

theorem vneg_eq (g : Graph) (a : NodeId) :
    vneg g a = vmul (mkLit g (-1)).1 a (mkLit g (-1)).2 := rfl

theorem vsub_eq (g : Graph) (a b : NodeId) :
    vsub g a b = vadd (vneg g b).1 a (vneg g b).2 := rfl

theorem vdiv_eq (g : Graph) (a b : NodeId) :
    vdiv g a b = vmul (vpow g b (-1)).1 a (vpow g b (-1)).2 := rfl

theorem dataOf_mkLit_frame (g : Graph) (x : ℚ) (i : NodeId)
    (h : i < g.length) : dataOf (mkLit g x).1 i = dataOf g i :=
  dataOf_append_lt g _ i h

theorem dataOf_vpow_frame (g : Graph) (a : NodeId) (p : ℚ) (i : NodeId)
    (h : i < g.length) : dataOf (vpow g a p).1 i = dataOf g i :=
  dataOf_append_lt g _ i h

theorem dataOf_vneg_frame (g : Graph) (c i : NodeId) (h : i < g.length) :
    dataOf (vneg g c).1 i = dataOf g i := by
  rw [vneg_eq]
  rw [show (vmul (mkLit g (-1)).1 c (mkLit g (-1)).2).1
      = (mkLit g (-1)).1 ++ [⟨dataOf (mkLit g (-1)).1 c *
          dataOf (mkLit g (-1)).1 (mkLit g (-1)).2, 0, some Op.mul,
          [c, (mkLit g (-1)).2]⟩] from rfl]
  rw [dataOf_append_lt (mkLit g (-1)).1 _ i (by simp [mkLit]; exact Nat.lt_succ_of_lt h)]
  exact dataOf_mkLit_frame g _ i h

theorem dataOf_vneg_out (g : Graph) (c : NodeId) (hc : c < g.length) :
    dataOf (vneg g c).1 (vneg g c).2 = dataOf g c * (-1) := by
  rw [vneg_eq, dataOf_vmul, dataOf_mkLit, dataOf_mkLit_frame g _ c hc]

/-- C8.  The derived operators are exactly the primitive compositions the
spec names, as graph constructions (the produced arenas and ids coincide),
and the forward values they compute are the composed ones. -/
theorem derived_ops_are_primitive_compositions (g : Graph) (a b : NodeId)
    (ha : a < g.length) (hb : b < g.length) :
    vneg g a = specNegate g a ∧
    vsub g a b = specSubtract g a b ∧
    vdiv g a b = specDivide g a b ∧
    dataOf (vneg g a).1 (vneg g a).2 = dataOf g a * (-1) ∧
    dataOf (vsub g a b).1 (vsub g a b).2
      = dataOf g a + dataOf g b * (-1) ∧
    dataOf (vdiv g a b).1 (vdiv g a b).2
      = dataOf g a * powf (dataOf g b) (-1) := by
  refine ⟨rfl, rfl, rfl, dataOf_vneg_out g a ha, ?_, ?_⟩
  · rw [vsub_eq, dataOf_vadd, dataOf_vneg_out g b hb,
      dataOf_vneg_frame g b a ha]
  · rw [vdiv_eq, dataOf_vmul, dataOf_vpow, dataOf_vpow_frame g b _ a ha]

/-- Witness for C8 on the two-leaf arena `[a = 2, b = -3]`. -/
theorem derived_ops_witness :
    (0 < diamondB.1.length ∧ 1 < diamondB.1.length) ∧
    (vneg diamondB.1 0 = specNegate diamondB.1 0 ∧
     vsub diamondB.1 0 1 = specSubtract diamondB.1 0 1 ∧
     vdiv diamondB.1 0 1 = specDivide diamondB.1 0 1 ∧
     dataOf (vneg diamondB.1 0).1 (vneg diamondB.1 0).2
       = dataOf diamondB.1 0 * (-1) ∧
     dataOf (vsub diamondB.1 0 1).1 (vsub diamondB.1 0 1).2
       = dataOf diamondB.1 0 + dataOf diamondB.1 1 * (-1) ∧
     dataOf (vdiv diamondB.1 0 1).1 (vdiv diamondB.1 0 1).2
       = dataOf diamondB.1 0 * powf (dataOf diamondB.1 1) (-1)) :=
  ⟨⟨by with_unfolding_all decide, by with_unfolding_all decide⟩,
   derived_ops_are_primitive_compositions diamondB.1 0 1
     (by with_unfolding_all decide) (by with_unfolding_all decide)⟩

/-- C4 counterexample: on the chain `w = relu(relu(u))` (`u` id 0, root id 2)
a second `backward` does not double every gradient — `u` ends at 3 (first
pass 1, second pass adds the now-accumulated 2), and the root is re-seeded
to 1 rather than doubled. -/
theorem backward_twice_not_double_cex :
    gradOf (backward (backward chainTwoRelu.1 chainTwoRelu.2)
        chainTwoRelu.2) 0 = 3 ∧
    gradOf (backward chainTwoRelu.1 chainTwoRelu.2) 0 = 1 ∧
    gradOf (backward (backward chainTwoRelu.1 chainTwoRelu.2)
        chainTwoRelu.2) chainTwoRelu.2 = 1 ∧
    gradOf (backward chainTwoRelu.1 chainTwoRelu.2) chainTwoRelu.2 = 1 ∧
    (3 : ℚ) ≠ 2 * 1 ∧ (1 : ℚ) ≠ 2 * 1 := by
  with_unfolding_all decide

/-- C4 amended.  A second `backward` accumulates by addition rather than
overwriting, but does not double every gradient: the root's gradient is
overwritten back to 1 by the re-seed, and nodes below the root's immediate
operands can receive more than double.  When every operand of the root is a
leaf (and gradients start at zero, as after construction), the second call
leaves each operand's gradient at exactly double its single-call value while
the root's own gradient stays 1. -/
theorem backward_twice_depth_one (g : Graph) (root : NodeId) (hWF : WF g)
    (hroot : root < g.length)
    (hleaf : ∀ c ∈ prevOf g root, (nthNode g c).op = none)
    (hzero : ∀ c ∈ prevOf g root, gradOf g c = 0) :
    gradOf (backward g root) root = 1 ∧
    gradOf (backward (backward g root) root) root = 1 ∧
    ∀ c ∈ prevOf g root,
      gradOf (backward (backward g root) root) c
        = 2 * gradOf (backward g root) c := by
  have hner : ∀ c ∈ prevOf g root, c ≠ root := by
    intro c hc
    rcases (hWF root hroot).2.2 c hc with hclt | ⟨hceq, _, _, _⟩
    · exact Nat.ne_of_lt hclt
    · rw [hceq]; exact Nat.succ_ne_self root
  have hclen : ∀ c ∈ prevOf g root, c < g.length := by
    intro c hc
    rcases (hWF root hroot).2.2 c hc with hclt | ⟨_, hlen, _, _⟩
    · exact Nat.lt_trans hclt hroot
    · exact hlen
  have hpleaf : ∀ c ∈ prevOf g root, prevOf g c = [] := by
    intro c hc
    have h2 := (hWF c (hclen c hc)).1
    unfold arity at h2
    rw [hleaf c hc] at h2
    exact h2
  have hb1 : backward g root = applyRule (setGrad g root 1) root :=
    backward_leaf_rooted g root hWF hroot hpleaf hleaf
  have hsh1 : SameShape g (backward g root) := backward_sameShape g root
  have hWF1 : WF (backward g root) := WF_of_sameShape hsh1 hWF
  have hroot1 : root < (backward g root).length := by rw [hsh1.1]; exact hroot
  have hprev1 : prevOf (backward g root) root = prevOf g root :=
    hsh1.prevOf_eq root
  have hb2 : backward (backward g root) root
      = applyRule (setGrad (backward g root) root 1) root := by
    apply backward_leaf_rooted _ root hWF1 hroot1
    · intro c hc
      rw [hsh1.prevOf_eq]
      exact hpleaf c (by rwa [hprev1] at hc)
    · intro c hc
      rw [(hsh1.2 c).2.1]
      exact hleaf c (by rwa [hprev1] at hc)
  have hS1shape : SameShape g (setGrad g root 1) := setGrad_sameShape g root 1
  have hS1prev : prevOf (setGrad g root 1) root = prevOf g root :=
    hS1shape.prevOf_eq root
  have hp0 : (prevOf (setGrad g root 1) root).getD 0 0
      < (setGrad g root 1).length := by
    rw [hS1prev, length_setGrad]; exact prev_getD_lt g hWF root hroot 0
  have hp1 : (prevOf (setGrad g root 1) root).getD 1 0
      < (setGrad g root 1).length := by
    rw [hS1prev, length_setGrad]; exact prev_getD_lt g hWF root hroot 1
  have hgrad1 : ∀ c, gradOf (backward g root) c
      = gradOf (setGrad g root 1) c + contribOf (setGrad g root 1) root c := by
    intro c; rw [hb1]; exact gradOf_applyRule _ root hp0 hp1 c
  have hS2shape : SameShape (backward g root)
      (setGrad (backward g root) root 1) := setGrad_sameShape _ root 1
  have hS2prev : prevOf (setGrad (backward g root) root 1) root
      = prevOf g root := by rw [hS2shape.prevOf_eq, hprev1]
  have hq0 : (prevOf (setGrad (backward g root) root 1) root).getD 0 0
      < (setGrad (backward g root) root 1).length := by
    rw [hS2prev, length_setGrad, hsh1.1]
    exact prev_getD_lt g hWF root hroot 0
  have hq1 : (prevOf (setGrad (backward g root) root 1) root).getD 1 0
      < (setGrad (backward g root) root 1).length := by
    rw [hS2prev, length_setGrad, hsh1.1]
    exact prev_getD_lt g hWF root hroot 1
  have hgrad2 : ∀ c, gradOf (backward (backward g root) root) c
      = gradOf (setGrad (backward g root) root 1) c
        + contribOf (setGrad (backward g root) root 1) root c := by
    intro c; rw [hb2]; exact gradOf_applyRule _ root hq0 hq1 c
  have hnodeeq : nthNode (setGrad (backward g root) root 1) root
      = nthNode (setGrad g root 1) root := by
    rw [nthNode_setGrad_self _ root 1 hroot1,
      nthNode_setGrad_self g root 1 hroot]
    obtain ⟨hdata, hopp, hprevv⟩ := hsh1.2 root
    rcases hg1n : nthNode (backward g root) root with ⟨d2, gr2, o2, p2⟩
    rcases hgn : nthNode g root with ⟨d1, gr1, o1, p1⟩
    rw [hg1n, hgn] at hdata hopp hprevv
    simp only at hdata hopp hprevv
    simp [hdata, hopp, hprevv]
  have hdataeq : ∀ x, dataOf (setGrad (backward g root) root 1) x
      = dataOf (setGrad g root 1) x := by
    intro x
    rw [hS2shape.dataOf_eq, hS1shape.dataOf_eq, hsh1.dataOf_eq]
  have hcontr : ∀ c, contribOf (setGrad (backward g root) root 1) root c
      = contribOf (setGrad g root 1) root c :=
    fun c => contribOf_congr _ _ root c hnodeeq hdataeq
  have hrootself : contribOf (setGrad g root 1) root root = 0 := by
    apply contribOf_self
    · intro c hc; exact hner c (by rwa [hS1prev] at hc)
    · rw [nthNode_setGrad_self g root 1 hroot]
      rcases hgn : nthNode g root with ⟨d1, gr1, o1, p1⟩
      have har := (hWF root hroot).1
      rw [hgn] at har
      exact arity_grad_irrel _ _ _ _ _ har
  have hg1root : gradOf (backward g root) root = 1 := by
    rw [hgrad1 root, hrootself, gradOf_setGrad_self g root 1 hroot, add_zero]
  refine ⟨hg1root, ?_, ?_⟩
  · rw [hgrad2 root, hcontr root, hrootself,
      gradOf_setGrad_self _ root 1 hroot1, add_zero]
  · intro c hc
    have hcne : c ≠ root := hner c hc
    have h1 : gradOf (backward g root) c
        = contribOf (setGrad g root 1) root c := by
      rw [hgrad1 c, gradOf_setGrad_ne g root c 1 hcne, hzero c hc, zero_add]
    rw [hgrad2 c, hcontr c, gradOf_setGrad_ne _ root c 1 hcne, h1]
    ring

/-- Witness for C4 amended on the pow-rooted depth-one graph
`y = power(x, 2)`: the operands (the base leaf and the exponent literal) are
leaves of the root (id 1), and the theorem applies to it. -/
theorem backward_twice_depth_one_witness :
    (WF powEx.1 ∧ 1 < powEx.1.length ∧
     (∀ c ∈ prevOf powEx.1 1, (nthNode powEx.1 c).op = none) ∧
     (∀ c ∈ prevOf powEx.1 1, gradOf powEx.1 c = 0)) ∧
    (gradOf (backward powEx.1 1) 1 = 1 ∧
     gradOf (backward (backward powEx.1 1) 1) 1 = 1 ∧
     ∀ c ∈ prevOf powEx.1 1,
       gradOf (backward (backward powEx.1 1) 1) c
         = 2 * gradOf (backward powEx.1 1) c) :=
  ⟨⟨by with_unfolding_all decide, by with_unfolding_all decide,
    by with_unfolding_all decide, by with_unfolding_all decide⟩,
   backward_twice_depth_one powEx.1 1 (by with_unfolding_all decide)
     (by with_unfolding_all decide) (by with_unfolding_all decide)
     (by with_unfolding_all decide)⟩

/-- C7.  `relu(x)` has forward value `max(x, 0)`; its rule adds the output
gradient into the operand's gradient exactly when the operand's value is
positive (and adds 0 otherwise); concretely, `backward(relu(x))` leaves the
gradient of a leaf `x = -2` at 0 and of a leaf `x = 2` at 1. -/
theorem relu_gate (g : Graph) (a : NodeId) (ha : a < g.length) (q : ℚ) :
    dataOf (vrelu g a).1 (vrelu g a).2 = max (dataOf g a) 0 ∧
    gradOf (applyRule (setGrad (vrelu g a).1 (vrelu g a).2 q) (vrelu g a).2) a
      = gradOf g a + (if 0 < dataOf g a then q else 0) ∧
    gradOf (backward reluNegEx.1 reluNegEx.2) 0 = 0 ∧
    gradOf (backward reluPosEx.1 reluPosEx.2) 0 = 1 := by
  refine ⟨dataOf_vrelu g a, ?_, by with_unfolding_all decide,
    by with_unfolding_all decide⟩
  have hlen1 : (vrelu g a).1.length = g.length + 1 := by simp [vrelu]
  have hlen : (vrelu g a).2 < (vrelu g a).1.length := by
    rw [hlen1]; exact Nat.lt_succ_self _
  have hn : nthNode (setGrad (vrelu g a).1 (vrelu g a).2 q) (vrelu g a).2
      = ⟨max (dataOf g a) 0, q, some Op.relu, [a]⟩ := by
    rw [nthNode_setGrad_self _ _ _ hlen]
    rw [show (vrelu g a).1
        = g ++ [⟨max (dataOf g a) 0, 0, some Op.relu, [a]⟩] from rfl,
      show (vrelu g a).2 = g.length from rfl, nthNode_append_last]
  simp only [applyRule, hn, List.getD_cons_zero]
  have haG : a < (setGrad (vrelu g a).1 (vrelu g a).2 q).length := by
    rw [length_setGrad, hlen1]; exact Nat.lt_succ_of_lt ha
  rw [gradOf_addGrad _ _ _ _ haG]
  rw [gradOf_setGrad_ne _ _ _ _ (show a ≠ (vrelu g a).2 from Nat.ne_of_lt ha)]
  rw [show (vrelu g a).1
      = g ++ [⟨max (dataOf g a) 0, 0, some Op.relu, [a]⟩] from rfl,
    gradOf_append_lt g _ a ha]
  simp [lt_max_iff]

/-- Witness for C7 on the arena `[a = 2, b = -3]` with operand `a`. -/
theorem relu_gate_witness :
    (0 < diamondB.1.length) ∧
    (dataOf (vrelu diamondB.1 0).1 (vrelu diamondB.1 0).2
        = max (dataOf diamondB.1 0) 0 ∧
     gradOf (applyRule (setGrad (vrelu diamondB.1 0).1 (vrelu diamondB.1 0).2 5)
        (vrelu diamondB.1 0).2) 0
       = gradOf diamondB.1 0 + (if 0 < dataOf diamondB.1 0 then 5 else 0) ∧
     gradOf (backward reluNegEx.1 reluNegEx.2) 0 = 0 ∧
     gradOf (backward reluPosEx.1 reluPosEx.2) 0 = 1) :=
  ⟨by with_unfolding_all decide,
   relu_gate diamondB.1 0 (by with_unfolding_all decide) 5⟩

/-- C9.  `backward` on a node with no operands (hence, through the API, no
operator tag) only sets that node's own gradient to 1 and changes nothing
else: the result is exactly `setGrad g i 1`. -/
theorem backward_on_leaf (g : Graph) (i : NodeId) (hWF : WF g)
    (hi : i < g.length) (hprev : prevOf g i = []) :
    backward g i = setGrad g i 1 ∧
    gradOf (backward g i) i = 1 ∧
    ∀ j, j ≠ i → nthNode (backward g i) j = nthNode g j := by
  have hop : (nthNode g i).op = none := by
    cases hopc : (nthNode g i).op with
    | none => rfl
    | some o =>
        exfalso
        have har := (hWF i hi).1
        unfold arity at har
        rw [hopc] at har
        unfold prevOf at hprev
        cases o <;> rw [hprev] at har <;> simp at har
  have htopo : topoOf g i = [i] := by simp [topoOf, buildTopoF, hprev]
  have hback : backward g i = setGrad g i 1 := by
    rw [backward, htopo]
    simp only [List.reverse_cons, List.reverse_nil, List.nil_append,
      List.foldl_cons, List.foldl_nil]
    apply applyRule_none
    rw [nthNode_setGrad_self g i 1 hi]
    exact hop
  exact ⟨hback, by rw [hback]; exact gradOf_setGrad_self g i 1 hi,
    fun j hj => by rw [hback]; exact nthNode_setGrad_ne g i j 1 hj⟩

/-- Witness for C9 at the exponent literal (id 2) of the pow-containing
arena `y = power(x, 2)`. -/
theorem backward_on_leaf_witness :
    (WF powEx.1 ∧ 2 < powEx.1.length ∧ prevOf powEx.1 2 = []) ∧
    (backward powEx.1 2 = setGrad powEx.1 2 1 ∧
     gradOf (backward powEx.1 2) 2 = 1 ∧
     ∀ j, j ≠ 2 → nthNode (backward powEx.1 2) j = nthNode powEx.1 j) :=
  ⟨⟨by with_unfolding_all decide, by with_unfolding_all decide,
    by with_unfolding_all decide⟩,
   backward_on_leaf powEx.1 2 (by with_unfolding_all decide)
     (by with_unfolding_all decide) (by with_unfolding_all decide)⟩

theorem sumValues_aux : ∀ (rest : List NodeId) (g g0 : Graph) (j : NodeId),
    (∃ t, g0 = g ++ t) → j < g0.length → (∀ v ∈ rest, v < g.length) →
    (∃ t2, (rest.foldl (fun acc v => vadd acc.1 acc.2 v) (g0, j)).1
        = g0 ++ t2) ∧
    (rest.foldl (fun acc v => vadd acc.1 acc.2 v) (g0, j)).2
      < (rest.foldl (fun acc v => vadd acc.1 acc.2 v) (g0, j)).1.length ∧
    dataOf (rest.foldl (fun acc v => vadd acc.1 acc.2 v) (g0, j)).1
        (rest.foldl (fun acc v => vadd acc.1 acc.2 v) (g0, j)).2
      = (rest.map (dataOf g)).foldl (fun acc x => acc + x) (dataOf g0 j) := by
  intro rest
  induction rest with
  | nil =>
      intro g g0 j hext hj _
      exact ⟨⟨[], by simp⟩, hj, rfl⟩
  | cons v vs ih =>
      intro g g0 j hext hj hv
      simp only [List.foldl_cons, List.map_cons]
      obtain ⟨t, rfl⟩ := hext
      obtain ⟨hext2, hlt2, hdata2⟩ := ih g (vadd (g ++ t) j v).1
        (vadd (g ++ t) j v).2
        ⟨t ++ [⟨dataOf (g ++ t) j + dataOf (g ++ t) v, 0, some Op.add,
          [j, v]⟩], by simp [vadd]⟩
        (by simp [vadd])
        (fun v2 hv2 => hv v2 (by simp [hv2]))
      rw [Prod.mk.eta] at hext2 hlt2 hdata2
      refine ⟨?_, hlt2, ?_⟩
      · obtain ⟨t2, ht2⟩ := hext2
        exact ⟨[⟨dataOf (g ++ t) j + dataOf (g ++ t) v, 0, some Op.add,
          [j, v]⟩] ++ t2, by rw [ht2]; simp [vadd]⟩
      · rw [hdata2, dataOf_vadd]
        rw [dataOf_append_lt g t v (hv v (by simp))]

/-- C10.  `Sum` over an empty iterator of Values is a panic (modelled as
`none`); over `first :: rest` it returns the left fold of `+`, so the result
node's value is the left-to-right sum of the elements' values. -/
theorem sum_left_fold (g : Graph) (first : NodeId) (rest : List NodeId)
    (h : ∀ v ∈ first :: rest, v < g.length) :
    sumValues g [] = none ∧
    ∃ r, sumValues g (first :: rest) = some r ∧
      dataOf r.1 r.2
        = (rest.map (dataOf g)).foldl (fun acc x => acc + x)
            (dataOf g first) := by
  refine ⟨rfl, ⟨_, rfl, ?_⟩⟩
  exact (sumValues_aux rest g g first ⟨[], by simp⟩ (h first (by simp))
    (fun v hv => h v (by simp [hv]))).2.2

/-- Witness for C10 on the diamond arena with ids `[0, 1, 2]`. -/
theorem sum_left_fold_witness :
    (∀ v ∈ [0, 1, 2], v < diamondD.1.length) ∧
    (sumValues diamondD.1 [] = none ∧
     ∃ r, sumValues diamondD.1 [0, 1, 2] = some r ∧
       dataOf r.1 r.2
         = (([1, 2] : List NodeId).map (dataOf diamondD.1)).foldl
             (fun acc x => acc + x) (dataOf diamondD.1 0)) :=
  ⟨by with_unfolding_all decide,
   sum_left_fold diamondD.1 0 [1, 2] (by with_unfolding_all decide)⟩

end Rustygrad
